import Mathlib

/-!
Verification of the PDF text-to-speech reader (`src/main.py`).

Shallow embedding conventions:
* text is modelled as `List Char`;
* the PDF library is modelled by `PdfFile` / `PdfDoc` (a readable document is
  its list of per-page extracted texts, an unreadable one is the constructor
  `PdfFile.unreadable` whose extraction raises);
* the two `threading.Event` signals `paused` / `stopped` of the narration
  thread are modelled as boolean-valued schedules `Nat → Bool` over an
  abstract poll-time counter;
* the speech engine (`engine.say` + `engine.runAndWait`) is a function
  `List Char → Bool` returning whether rendering the unit succeeded
  (`false` models the call raising an exception);
* the bookmark file on disk is `BookmarkFile` (missing / unparsable /
  parsable JSON object, the latter carried as an insertion-ordered
  association list exactly like a Python `dict`).
-/

namespace BookWorm

/-- Sentence-terminal punctuation, from `re.split(r'[.!?]+', text)`
in `speak_text` (main.py:131). -/
def isTerm (c : Char) : Bool := c = '.' || c = '!' || c = '?'

/-- Characters removed by Python `str.strip()` (ASCII whitespace;
11 and 12 are vertical tab and form feed). -/
def isWS (c : Char) : Bool :=
  c = ' ' || c = '\t' || c = '\n' || c = '\r' || c.toNat = 11 || c.toNat = 12

/-- Python `sentence.strip()`: drop leading and trailing whitespace. -/
def trimC (l : List Char) : List Char :=
  ((l.dropWhile isWS).reverse.dropWhile isWS).reverse

/-- Worker for `re.split(r'[.!?]+', text)`.  `inRun` records whether the scan
is currently inside a maximal run of terminator characters (a run is a single
delimiter and contributes a single split point). -/
def splitGo : Bool → List Char → List Char → List (List Char)
  | _, acc, [] => [acc.reverse]
  | inRun, acc, c :: cs =>
    if isTerm c then
      if inRun then splitGo true acc cs
      else acc.reverse :: splitGo true [] cs
    else splitGo false (c :: acc) cs

/-- `re.split(r'[.!?]+', text)` (main.py:131): split on maximal runs of
sentence-terminal punctuation; the delimiters are discarded. -/
def splitRuns (l : List Char) : List (List Char) := splitGo false [] l

/-- The speakable units actually narrated by `speak_text` (main.py:146-148):
the split fields whose `strip()` is non-empty, each stripped. -/
def segment (T : List Char) : List (List Char) :=
  ((splitRuns T).filter (fun s => !(trimC s).isEmpty)).map trimC

/-- Rebuild a text from split fields and the delimiters dropped between
consecutive fields. -/
def interleave : List (List Char) → List (List Char) → List Char
  | [], _ => []
  | [s], _ => s
  | s :: s2 :: rest, [] => s ++ interleave (s2 :: rest) []
  | s :: s2 :: rest, d :: ds => s ++ d ++ interleave (s2 :: rest) ds

/-- Outcome of one run of the narration task `speak_text`. -/
inductive SpeakRes : Type
  | finished                  -- all split fields consumed (main.py:133 loop ends)
  | stopSig                   -- a `stopped` check broke out of the loop
  | sinkErr (u : List Char)   -- `engine.say`/`runAndWait` raised on unit `u`
  | hung                      -- still waiting paused after the poll budget
deriving DecidableEq

/-- Observable result of `speak_text`: the units rendered through the engine
(with the poll time of the `stopped` check that guarded each), the split
fields not yet consumed on termination, the outcome, and the final time. -/
structure SpeakOut : Type where
  rendered : List (List Char × Nat)
  remaining : List (List Char)
  res : SpeakRes
  tEnd : Nat
deriving DecidableEq

/-- A `stopped` event is one-shot for the lifetime of a task: once set it is
never cleared, so its schedule is monotone. -/
def StoppedMono (stopped : Nat → Bool) : Prop :=
  ∀ s t : Nat, s ≤ t → stopped s = true → stopped t = true

/-- The inner pause loop of `speak_text` (main.py:138-141):
`while paused: if stopped: break; sleep(0.1)`.  Each poll advances the
abstract clock; `fuel` bounds the number of polls (`none` models a task that
is still waiting paused when the poll budget runs out). -/
def waitPause (stopped paused : Nat → Bool) : Nat → Nat → Option Nat
  | 0, t =>
    if paused t then (if stopped t then some t else none) else some t
  | fuel + 1, t =>
    if paused t then
      (if stopped t then some t else waitPause stopped paused fuel (t + 1))
    else some t

/-- Loop body of `speak_text` (main.py:133-148) over the split fields.
For each field: check `stopped`; wait while `paused` (rechecking `stopped`);
recheck `stopped`; then, when the stripped field is non-empty, render it
through the engine.  A `false` answer from the engine models `engine.say` /
`runAndWait` raising: the loop has no handler, so the task is left at once
(Python propagates the exception out of the thread target). -/
def speakGo (stopped paused : Nat → Bool) (sink : List Char → Bool) (fuel : Nat) :
    List (List Char) → List (List Char × Nat) → Nat → SpeakOut
  | [], acc, t => ⟨acc.reverse, [], SpeakRes.finished, t⟩
  | s :: rest, acc, t =>
    if stopped t then ⟨acc.reverse, s :: rest, SpeakRes.stopSig, t⟩
    else
      match waitPause stopped paused fuel t with
      | none => ⟨acc.reverse, s :: rest, SpeakRes.hung, t⟩
      | some t2 =>
        if stopped t2 then ⟨acc.reverse, s :: rest, SpeakRes.stopSig, t2⟩
        else if trimC s = [] then speakGo stopped paused sink fuel rest acc (t2 + 1)
        else if sink (trimC s) then
          speakGo stopped paused sink fuel rest ((trimC s, t2) :: acc) (t2 + 1)
        else ⟨acc.reverse, rest, SpeakRes.sinkErr (trimC s), t2⟩

/-- `PDFReader.speak_text` (main.py:129-148): split the text into sentences
and drive them through the engine, honouring the `paused`/`stopped` events. -/
def speak_text (stopped paused : Nat → Bool) (sink : List Char → Bool)
    (fuel : Nat) (text : List Char) : SpeakOut :=
  speakGo stopped paused sink fuel (splitRuns text) [] 0

/-- State of `bookmarks.json` on disk: absent, present but unparsable
(`json.load` raises), or a parsed JSON object.  A Python `dict` is an
insertion-ordered association list with distinct keys; updating an existing
key keeps its position, a new key is appended. -/
inductive BookmarkFile : Type
  | missing
  | corrupt
  | valid (entries : List (String × Nat))
deriving DecidableEq

/-- `PDFReader.load_bookmarks` (main.py:114-122): a missing file or a file
`json.load` cannot parse both yield the empty mapping; nothing is raised. -/
def load_bookmarks : BookmarkFile → List (String × Nat)
  | BookmarkFile.valid m => m
  | _ => []

/-- Python `bookmarks[pdf_path] = page_num` on a `dict` held as an
insertion-ordered association list. -/
def dictSet (m : List (String × Nat)) (k : String) (v : Nat) : List (String × Nat) :=
  if m.any (fun e => e.1 == k) then
    m.map (fun e => if e.1 == k then (k, v) else e)
  else m ++ [(k, v)]

/-- Python `bookmarks.get(pdf_path)` without a default, as an `Option`. -/
def dictGet (m : List (String × Nat)) (k : String) : Option Nat :=
  (m.find? (fun e => e.1 == k)).map Prod.snd

/-- `PDFReader.save_bookmark` (main.py:102-112): load the whole mapping,
overwrite/insert this document's entry, rewrite the whole file. -/
def save_bookmark (f : BookmarkFile) (doc : String) (page : Nat) : BookmarkFile :=
  BookmarkFile.valid (dictSet (load_bookmarks f) doc page)

/-- `PDFReader.get_bookmark` (main.py:124-127): `bookmarks.get(pdf_path, 0)`. -/
def get_bookmark (f : BookmarkFile) (doc : String) : Nat :=
  (dictGet (load_bookmarks f) doc).getD 0

/-- A readable PDF document: the list of per-page extracted texts. -/
structure PdfDoc : Type where
  pages : List (List Char)
deriving DecidableEq

/-- A PDF path as seen by `PyPDF2`: either opening/parsing raises
(`unreadable`), or it is a readable document. -/
inductive PdfFile : Type
  | unreadable
  | ok (doc : PdfDoc)
deriving DecidableEq

/-- `page.extract_text()` for a 0-based page index inside the page range. -/
def pageText (doc : PdfDoc) (n : Nat) : List Char := doc.pages.getD n []

/-- The marker `f"\n--- Page {page_num + 1} ---\n"` injected before each
page's text (main.py:41), for 1-based page number `n`. -/
def pageMarker (n : Nat) : List Char :=
  '\n' :: ("--- Page ".toList ++ Nat.toDigits 10 n ++ " ---".toList) ++ ['\n']

/-- `PDFReader.extract_text_from_pdf` (main.py:28-47).  Any failure to open
or parse returns `(None, 0)` after printing (main.py:45-47); otherwise the
loop accumulates `marker ++ page text` for `page_num` in
`range(start_page, min(end_page, total_pages))`, with `end_page` defaulting
to the total page count. -/
def extract_text_from_pdf (f : PdfFile) (start_page : Nat) (end_page : Option Nat) :
    Option (List Char) × Nat :=
  match f with
  | PdfFile.unreadable => (none, 0)
  | PdfFile.ok doc =>
    let total := doc.pages.length
    let e := end_page.getD total
    (some ((List.range' start_page (min e total - start_page)).foldl
        (fun acc n => acc ++ pageMarker (n + 1) ++ pageText doc n) []),
      total)

/-- Reading-order concatenation of `marker ++ page text` over a page list:
the closed form of the extraction loop's accumulator. -/
def pagesConcat (doc : PdfDoc) (ps : List Nat) : List Char :=
  ps.foldr (fun n acc => pageMarker (n + 1) ++ (pageText doc n ++ acc)) []

/-- One line of the control protocol read by `handle_controls`
(main.py:179-216): `p`, `s`, `b`, `n`, `j` (with the follow-up page line,
`none` when `int()` raises `ValueError`), or any unrecognized input. -/
inductive Cmd : Type
  | p
  | s
  | b
  | n
  | j (pageInput : Option Int)
  | other
deriving DecidableEq

/-- Observable thread/reporting events of the controller, in program order:
`start page text` is `Thread(...).start()` launching `speak_text` on `text`
(main.py:169-170), `join` is a `read_thread.join()` returning — the task is
then observably terminated — (main.py:199, 210, 221), `stopSet` is
`self.stopped.set()`, `invalidPage` / `malformed` are the two rejection
messages of the `j` command (main.py:214, 216), `saveBm` is a `b` command's
`save_bookmark` call. -/
inductive Ev : Type
  | start (page : Nat) (text : List Char)
  | join
  | stopSet
  | invalidPage
  | malformed
  | saveBm (doc : String) (page : Nat)
deriving DecidableEq

/-- Controller state of the `PDFReader` object as far as the command loop
touches it: `current_pdf`/`current_page` (main.py:152-153), the two events,
and the bookmark file. -/
structure RState : Type where
  current_pdf : Option String
  current_page : Nat
  paused : Bool
  stopped : Bool
  bookmarks : BookmarkFile
deriving DecidableEq

/-- The state writes `read_pdf` performs before extraction (main.py:152-155):
record the document and page, clear both events. -/
def readPdfSetup (docId : String) (page : Nat) (st : RState) : RState :=
  { st with current_pdf := some docId, current_page := page,
            stopped := false, paused := false }

/-- The launch decision of `read_pdf` (main.py:165-170): extraction failure
returns `None` (falsy), and an empty extracted text is falsy too; in both
cases no thread is started and `handle_controls` is never entered.
Otherwise the narration thread is started on the extracted text. -/
def session_info (pdf : PdfFile) (page : Nat) : Option (List Char × Nat) :=
  match extract_text_from_pdf pdf page none with
  | (none, _) => none
  | (some text, total) => if text = [] then none else some (text, total)

/-- `PDFReader.handle_controls` (main.py:175-221) with the recursive
`read_pdf` calls of the `n`/`j` branches inlined.  The command list is the
sequence of input lines delivered while the narration thread is alive; an
exhausted list models the thread finishing, the loop condition
`read_thread.is_alive()` turning false, and the final `join` of line 221.
Every `break` path likewise runs the line-221 `join` on its way out. -/
def handle_controls (pdf : PdfFile) (docId : String) :
    Nat → Nat → RState → List Cmd → RState × List Ev
  | _, _, st, [] => (st, [Ev.join])
  | sp, total, st, Cmd.p :: rest =>
    if st.paused then handle_controls pdf docId sp total { st with paused := false } rest
    else handle_controls pdf docId sp total { st with paused := true } rest
  | _, _, st, Cmd.s :: _ => ({ st with stopped := true }, [Ev.stopSet, Ev.join])
  | sp, total, st, Cmd.b :: rest =>
    let st1 := { st with bookmarks := save_bookmark st.bookmarks docId st.current_page }
    let r := handle_controls pdf docId sp total st1 rest
    (r.1, Ev.saveBm docId st.current_page :: r.2)
  | sp, total, st, Cmd.n :: rest =>
    let newPage := min (sp + 5) (total - 1)
    let st1 := readPdfSetup docId newPage { st with stopped := true }
    (match session_info pdf newPage with
     | none => (st1, [Ev.stopSet, Ev.join, Ev.join])
     | some (text, total2) =>
       let r := handle_controls pdf docId newPage total2 st1 rest
       (r.1, Ev.stopSet :: Ev.join :: Ev.start newPage text :: (r.2 ++ [Ev.join])))
  | sp, total, st, Cmd.j none :: rest =>
    let r := handle_controls pdf docId sp total st rest
    (r.1, Ev.malformed :: r.2)
  | sp, total, st, Cmd.j (some k) :: rest =>
    if 0 ≤ k - 1 ∧ k - 1 < (total : Int) then
      let jp := (k - 1).toNat
      let st1 := readPdfSetup docId jp { st with stopped := true }
      (match session_info pdf jp with
       | none => (st1, [Ev.stopSet, Ev.join, Ev.join])
       | some (text, total2) =>
         let r := handle_controls pdf docId jp total2 st1 rest
         (r.1, Ev.stopSet :: Ev.join :: Ev.start jp text :: (r.2 ++ [Ev.join])))
    else
      let r := handle_controls pdf docId sp total st rest
      (r.1, Ev.invalidPage :: r.2)
  | sp, total, st, Cmd.other :: rest => handle_controls pdf docId sp total st rest

/-- `PDFReader.read_pdf` (main.py:150-173): set up state, extract, and if the
text is truthy start the narration thread and enter the command loop. -/
def read_pdf (pdf : PdfFile) (docId : String) (page : Nat) (st : RState)
    (cmds : List Cmd) : RState × List Ev :=
  let st1 := readPdfSetup docId page st
  match session_info pdf page with
  | none => (st1, [])
  | some (text, total) =>
    let r := handle_controls pdf docId page total st1 cmds
    (r.1, Ev.start page text :: r.2)

/-- Running count of unjoined started threads along an event trace. -/
def evStep (k : Nat) : Ev → Nat
  | Ev.start _ _ => k + 1
  | Ev.join => 0
  | _ => k

/-- Fold `evStep` over a trace. -/
def liveAfter (k : Nat) (es : List Ev) : Nat := es.foldl evStep k

/-- A trace is well-formed from live-count `k` when every `start` happens
while no started thread is unjoined (so in particular the count never
exceeds one once it is at most one). -/
def okTrace : Nat → List Ev → Bool
  | _, [] => true
  | k, Ev.start _ _ :: es => decide (k = 0) && okTrace 1 es
  | _, Ev.join :: es => okTrace 0 es
  | k, _ :: es => okTrace k es

theorem dropWhile_head_false {α : Type} {p : α → Bool} :
    ∀ (l : List α) (c : α) (rs : List α), l.dropWhile p = c :: rs → p c = false := by
  intro l
  induction l with
  | nil => intro c rs h; simp [List.dropWhile] at h
  | cons a l ih =>
    intro c rs h
    by_cases ha : p a
    · exact ih c rs (by simpa [List.dropWhile_cons, ha] using h)
    · simp [List.dropWhile_cons, ha] at h
      obtain ⟨h1, _⟩ := h
      simpa [h1] using (by simpa using ha : p a = false)

theorem dropWhile_of_head_false {α : Type} {p : α → Bool} {c : α} {rs : List α}
    (h : p c = false) : (c :: rs).dropWhile p = c :: rs := by
  simp [List.dropWhile_cons, h]

theorem dropWhile_idem {α : Type} {p : α → Bool} (l : List α) :
    (l.dropWhile p).dropWhile p = l.dropWhile p := by
  cases h : l.dropWhile p with
  | nil => simp
  | cons c rs => exact dropWhile_of_head_false (dropWhile_head_false l c rs h)

theorem dropWhile_append_singleton {α : Type} {p : α → Bool} {a : α}
    (h : p a = false) : ∀ xs : List α, (xs ++ [a]).dropWhile p = xs.dropWhile p ++ [a] := by
  intro xs
  induction xs with
  | nil => simp [List.dropWhile_cons, h]
  | cons x xs ih =>
    by_cases hx : p x
    · simpa [List.dropWhile_cons, hx] using ih
    · simp [List.dropWhile_cons, hx]

theorem trimC_idem (l : List Char) : trimC (trimC l) = trimC l := by
  unfold trimC
  cases hA : l.dropWhile isWS with
  | nil => simp
  | cons a as =>
    have ha : isWS a = false := dropWhile_head_false l a as hA
    have hB : (a :: as).reverse.dropWhile isWS
        = as.reverse.dropWhile isWS ++ [a] := by
      rw [List.reverse_cons]
      exact dropWhile_append_singleton ha _
    rw [hB]
    have hrev : (as.reverse.dropWhile isWS ++ [a]).reverse
        = a :: (as.reverse.dropWhile isWS).reverse := by simp
    rw [hrev, dropWhile_of_head_false ha]
    simp [dropWhile_append_singleton ha, dropWhile_idem]

theorem splitGo_ne_nil : ∀ (cs : List Char) (mode : Bool) (acc : List Char),
    splitGo mode acc cs ≠ [] := by
  intro cs
  induction cs with
  | nil => intro mode acc; simp [splitGo]
  | cons c cs ih =>
    intro mode acc
    by_cases h : isTerm c
    · cases mode
      · simp [splitGo, h]
      · simpa [splitGo, h] using ih true acc
    · simpa [splitGo, h] using ih false (c :: acc)

theorem splitGo_true_run : ∀ (cs : List Char),
    ∃ run rest : List Char,
      (∀ c ∈ run, isTerm c = true) ∧ cs = run ++ rest ∧
      ∀ acc : List Char, splitGo true acc cs = splitGo false acc rest := by
  intro cs
  induction cs with
  | nil => exact ⟨[], [], by simp, by simp, fun acc => rfl⟩
  | cons c cs ih =>
    by_cases h : isTerm c
    · obtain ⟨run, rest, hrun, hcs, heq⟩ := ih
      refine ⟨c :: run, rest, ?_, by simp [hcs], ?_⟩
      · intro x hx
        rcases List.mem_cons.mp hx with hx | hx
        · simpa [hx] using h
        · exact hrun x hx
      · intro acc
        simpa [splitGo, h] using heq acc
    · refine ⟨[], c :: cs, by simp, by simp, ?_⟩
      intro acc
      simp [splitGo, h]

theorem splitGo_false_recon : ∀ (n : Nat) (cs acc : List Char), cs.length ≤ n →
    (∀ c ∈ acc, isTerm c = false) →
    ∃ D : List (List Char),
      D.length + 1 = (splitGo false acc cs).length ∧
      (∀ d ∈ D, d ≠ [] ∧ ∀ c ∈ d, isTerm c = true) ∧
      (∀ s ∈ splitGo false acc cs, ∀ c ∈ s, isTerm c = false) ∧
      interleave (splitGo false acc cs) D = acc.reverse ++ cs := by
  intro n
  induction n with
  | zero =>
    intro cs acc hlen hacc
    have hcs : cs = [] := List.length_eq_zero.mp (Nat.le_zero.mp hlen)
    subst hcs
    refine ⟨[], by simp [splitGo], by simp, ?_, by simp [splitGo, interleave]⟩
    intro s hs c hc
    simp [splitGo] at hs
    subst hs
    exact hacc c (List.mem_reverse.mp hc)
  | succ n ih =>
    intro cs acc hlen hacc
    cases cs with
    | nil =>
      refine ⟨[], by simp [splitGo], by simp, ?_, by simp [splitGo, interleave]⟩
      intro s hs c hc
      simp [splitGo] at hs
      subst hs
      exact hacc c (List.mem_reverse.mp hc)
    | cons c cs =>
      by_cases h : isTerm c
      · obtain ⟨run, rest, hrun, hcs, heq⟩ := splitGo_true_run cs
        have hrlen : rest.length ≤ n := by
          have h1 : cs.length = run.length + rest.length := by simp [hcs]
          have h2 : cs.length + 1 ≤ n + 1 := by simpa using hlen
          omega
        obtain ⟨D, hDlen, hDterm, hSclean, hinter⟩ := ih rest [] hrlen (by simp)
        have hsplit : splitGo false acc (c :: cs) = acc.reverse :: splitGo false [] rest := by
          simp [splitGo, h, heq []]
        obtain ⟨s1, S2, hS⟩ := List.exists_cons_of_ne_nil (splitGo_ne_nil rest false [])
        refine ⟨(c :: run) :: D, ?_, ?_, ?_, ?_⟩
        · simp [hsplit, hDlen.symm]
        · intro d hd
          rcases List.mem_cons.mp hd with hd | hd
          · subst hd
            refine ⟨by simp, ?_⟩
            intro x hx
            rcases List.mem_cons.mp hx with hx | hx
            · simpa [hx] using h
            · exact hrun x hx
          · exact hDterm d hd
        · intro s hs x hx
          rw [hsplit] at hs
          rcases List.mem_cons.mp hs with hs | hs
          · subst hs
            exact hacc x (List.mem_reverse.mp hx)
          · exact hSclean s hs x hx
        · rw [hsplit, hS]
          rw [hS] at hinter
          show interleave (acc.reverse :: s1 :: S2) ((c :: run) :: D) = acc.reverse ++ (c :: cs)
          calc interleave (acc.reverse :: s1 :: S2) ((c :: run) :: D)
              = acc.reverse ++ (c :: run) ++ interleave (s1 :: S2) D := rfl
            _ = acc.reverse ++ (c :: run) ++ rest := by rw [hinter]; simp
            _ = acc.reverse ++ (c :: cs) := by simp [hcs]
      · have hstep : splitGo false acc (c :: cs) = splitGo false (c :: acc) cs := by
          simp [splitGo, h]
        have hlen' : cs.length ≤ n := by
          have h2 : cs.length + 1 ≤ n + 1 := by simpa using hlen
          omega
        have hacc' : ∀ x ∈ c :: acc, isTerm x = false := by
          intro x hx
          rcases List.mem_cons.mp hx with hx | hx
          · simpa [hx] using h
          · exact hacc x hx
        obtain ⟨D, hDlen, hDterm, hSclean, hinter⟩ := ih cs (c :: acc) hlen' hacc'
        refine ⟨D, by simp [hstep, hDlen], hDterm, ?_, ?_⟩
        · intro s hs
          rw [hstep] at hs
          exact hSclean s hs
        · rw [hstep, hinter]
          simp

theorem splitGo_no_term : ∀ (cs acc : List Char), (∀ c ∈ cs, isTerm c = false) →
    splitGo false acc cs = [acc.reverse ++ cs] := by
  intro cs
  induction cs with
  | nil => intro acc _; simp [splitGo]
  | cons c cs ih =>
    intro acc h
    have hc : isTerm c = false := h c (by simp)
    have hrest : ∀ x ∈ cs, isTerm x = false := fun x hx => h x (by simp [hx])
    rw [show splitGo false acc (c :: cs) = splitGo false (c :: acc) cs by simp [splitGo, hc]]
    rw [ih (c :: acc) hrest]
    simp

theorem waitPause_not_paused {stopped paused : Nat → Bool} (fuel t : Nat)
    (h : paused t = false) : waitPause stopped paused fuel t = some t := by
  cases fuel <;> simp [waitPause, h]

theorem waitPause_stopped_check {stopped paused : Nat → Bool} {T : Nat}
    (hm : StoppedMono stopped) (hT : stopped T = true) :
    ∀ (fuel t : Nat), T ≤ t + fuel → waitPause stopped paused fuel t ≠ none := by
  intro fuel
  induction fuel with
  | zero =>
    intro t ht
    have hs : stopped t = true := hm T t (by omega) hT
    simp [waitPause, hs]
  | succ fuel ih =>
    intro t ht
    by_cases hp : paused t
    · by_cases hs : stopped t
      · simp [waitPause, hp, hs]
      · have : waitPause stopped paused fuel (t + 1) ≠ none := ih (t + 1) (by omega)
        simpa [waitPause, hp, hs] using this
    · simp [waitPause, hp]

theorem speakGo_rendered_unstopped {stopped paused : Nat → Bool}
    {sink : List Char → Bool} {fuel : Nat} :
    ∀ (sentences : List (List Char)) (acc : List (List Char × Nat)) (t : Nat),
      (∀ q ∈ acc, stopped q.2 = false) →
      ∀ q ∈ (speakGo stopped paused sink fuel sentences acc t).rendered,
        stopped q.2 = false := by
  intro sentences
  induction sentences with
  | nil =>
    intro acc t hacc q hq
    simp [speakGo] at hq
    exact hacc q hq
  | cons s rest ih =>
    intro acc t hacc q hq
    rw [speakGo] at hq
    by_cases h1 : stopped t
    · simp [h1] at hq
      exact hacc q hq
    · simp only [h1, if_false, Bool.false_eq_true] at hq
      cases hw : waitPause stopped paused fuel t with
      | none =>
        rw [hw] at hq
        simp at hq
        exact hacc q hq
      | some t2 =>
        rw [hw] at hq
        by_cases h2 : stopped t2
        · simp [h2] at hq
          exact hacc q hq
        · simp only [h2, if_false, Bool.false_eq_true] at hq
          by_cases h3 : trimC s = []
          · simp only [h3, if_true, if_pos rfl] at hq
            exact ih acc (t2 + 1) hacc q (by simpa using hq)
          · simp only [h3, if_neg h3] at hq
            by_cases h4 : sink (trimC s)
            · simp only [h4, if_true] at hq
              refine ih _ (t2 + 1) ?_ q (by simpa [h4] using hq)
              intro q' hq'
              rcases List.mem_cons.mp hq' with hq' | hq'
              · subst hq'
                simpa using h2
              · exact hacc q' hq'
            · simp [h4] at hq
              exact hacc q hq

theorem speakGo_no_hung {stopped paused : Nat → Bool} {sink : List Char → Bool}
    {fuel T : Nat} (hm : StoppedMono stopped) (hT : stopped T = true)
    (hfuel : T ≤ fuel) :
    ∀ (sentences : List (List Char)) (acc : List (List Char × Nat)) (t : Nat),
      (speakGo stopped paused sink fuel sentences acc t).res ≠ SpeakRes.hung := by
  intro sentences
  induction sentences with
  | nil => intro acc t; simp [speakGo]
  | cons s rest ih =>
    intro acc t
    rw [speakGo]
    by_cases h1 : stopped t
    · simp [h1]
    · simp only [h1, if_false, Bool.false_eq_true]
      cases hw : waitPause stopped paused fuel t with
      | none =>
        exact absurd hw (waitPause_stopped_check hm hT fuel t (by omega))
      | some t2 =>
        by_cases h2 : stopped t2
        · simp [h2]
        · simp only [h2, if_false, Bool.false_eq_true]
          by_cases h3 : trimC s = []
          · simpa [h3] using ih acc (t2 + 1)
          · by_cases h4 : sink (trimC s)
            · simpa [h3, h4] using ih ((trimC s, t2) :: acc) (t2 + 1)
            · simp [h3, h4]

theorem speakGo_res_cases {stopped paused : Nat → Bool} {sink : List Char → Bool}
    {fuel : Nat} :
    ∀ (sentences : List (List Char)) (acc : List (List Char × Nat)) (t : Nat),
      (speakGo stopped paused sink fuel sentences acc t).res = SpeakRes.hung ∨
      ((speakGo stopped paused sink fuel sentences acc t).res = SpeakRes.stopSig ∧
        stopped (speakGo stopped paused sink fuel sentences acc t).tEnd = true) ∨
      ((speakGo stopped paused sink fuel sentences acc t).res = SpeakRes.finished ∧
        (speakGo stopped paused sink fuel sentences acc t).remaining = []) ∨
      (∃ u, (speakGo stopped paused sink fuel sentences acc t).res = SpeakRes.sinkErr u ∧
        sink u = false) := by
  intro sentences
  induction sentences with
  | nil => intro acc t; right; right; left; simp [speakGo]
  | cons s rest ih =>
    intro acc t
    rw [speakGo]
    by_cases h1 : stopped t
    · right; left; simp [h1]
    · simp only [h1, if_false, Bool.false_eq_true]
      cases hw : waitPause stopped paused fuel t with
      | none => left; rfl
      | some t2 =>
        by_cases h2 : stopped t2
        · right; left; simp [h2]
        · simp only [h2, if_false, Bool.false_eq_true]
          by_cases h3 : trimC s = []
          · simpa [h3] using ih acc (t2 + 1)
          · by_cases h4 : sink (trimC s)
            · simpa [h3, h4] using ih ((trimC s, t2) :: acc) (t2 + 1)
            · right; right; right
              refine ⟨trimC s, ?_, by simpa using h4⟩
              simp [h3, h4]

theorem speakGo_sinkErr_inv {stopped paused : Nat → Bool} {sink : List Char → Bool}
    {fuel : Nat} {u : List Char} :
    ∀ (sentences : List (List Char)) (acc : List (List Char × Nat)) (t : Nat)
      (out : SpeakOut),
      (∀ q ∈ acc, sink q.1 = true) →
      speakGo stopped paused sink fuel sentences acc t = out →
      out.res = SpeakRes.sinkErr u →
      sink u = false ∧ ∀ q ∈ out.rendered, sink q.1 = true := by
  intro sentences
  induction sentences with
  | nil =>
    intro acc t out hacc hout hres
    rw [speakGo] at hout
    rw [← hout] at hres
    simp at hres
  | cons s rest ih =>
    intro acc t out hacc hout hres
    rw [speakGo] at hout
    by_cases h1 : stopped t
    · rw [← hout] at hres
      simp [h1] at hres
    · simp only [h1, Bool.false_eq_true, if_false] at hout
      cases hw : waitPause stopped paused fuel t with
      | none =>
        rw [hw] at hout
        rw [← hout] at hres
        simp at hres
      | some t2 =>
        rw [hw] at hout
        by_cases h2 : stopped t2
        · rw [← hout] at hres
          simp [h2] at hres
        · simp only [h2, Bool.false_eq_true, if_false] at hout
          by_cases h3 : trimC s = []
          · rw [if_pos h3] at hout
            exact ih acc (t2 + 1) out hacc hout hres
          · rw [if_neg h3] at hout
            by_cases h4 : sink (trimC s)
            · rw [if_pos h4] at hout
              refine ih ((trimC s, t2) :: acc) (t2 + 1) out ?_ hout hres
              intro q hq
              rcases List.mem_cons.mp hq with hq | hq
              · subst hq; simpa using h4
              · exact hacc q hq
            · rw [if_neg h4] at hout
              rw [← hout] at hres ⊢
              have hu : trimC s = u := by simpa using hres
              constructor
              · rw [← hu]; simpa using h4
              · intro q hq
                simp at hq
                exact hacc q hq

theorem speakGo_free_run :
    ∀ (sentences : List (List Char)) (acc : List (List Char × Nat)) (t fuel : Nat),
      ((speakGo (fun _ => false) (fun _ => false) (fun _ => true) fuel
          sentences acc t).rendered).map Prod.fst
        = (acc.reverse).map Prod.fst
            ++ (sentences.filter (fun s => !(trimC s).isEmpty)).map trimC := by
  intro sentences
  induction sentences with
  | nil => intro acc t fuel; simp [speakGo]
  | cons s rest ih =>
    intro acc t fuel
    rw [speakGo]
    rw [waitPause_not_paused fuel t rfl]
    by_cases h3 : trimC s = []
    · have hemp : (trimC s).isEmpty = true := by simp [h3]
      simp only [Bool.false_eq_true, if_false, if_pos h3]
      rw [ih acc (t + 1) fuel]
      simp [List.filter_cons, hemp]
    · have hemp : (trimC s).isEmpty = false := by
        cases htr : trimC s with
        | nil => exact absurd htr h3
        | cons a l => simp
      simp only [Bool.false_eq_true, if_false, if_neg h3, if_pos rfl, if_true]
      rw [ih ((trimC s, t) :: acc) (t + 1) fuel]
      simp [List.filter_cons, hemp]

theorem dictGet_map_set_self {k : String} {v : Nat} :
    ∀ m : List (String × Nat), m.any (fun e => e.1 == k) = true →
      dictGet (m.map (fun e => if e.1 == k then (k, v) else e)) k = some v := by
  intro m
  induction m with
  | nil => intro h; simp at h
  | cons e m ih =>
    intro h
    by_cases he : e.1 == k
    · simp [dictGet, List.find?, he]
    · have hm : m.any (fun e => e.1 == k) = true := by
        simp [List.any_cons, he] at h
        simpa using h
      have := ih hm
      simpa [dictGet, List.find?, he] using this

theorem dictGet_append_self {k : String} {v : Nat} :
    ∀ m : List (String × Nat), m.any (fun e => e.1 == k) = false →
      dictGet (m ++ [(k, v)]) k = some v := by
  intro m
  induction m with
  | nil => simp [dictGet, List.find?]
  | cons e m ih =>
    intro h
    simp only [List.any_cons, Bool.or_eq_false_iff] at h
    have := ih h.2
    simpa [dictGet, List.find?, h.1] using this

theorem dictGet_map_set_other {k : String} {v : Nat} {d : String} (hd : d ≠ k) :
    ∀ m : List (String × Nat),
      dictGet (m.map (fun e => if e.1 == k then (k, v) else e)) d = dictGet m d := by
  intro m
  induction m with
  | nil => simp [dictGet]
  | cons e m ih =>
    by_cases he : e.1 == k
    · have hek : e.1 = k := by simpa using he
      have hkd : (k == d) = false := by
        simp only [beq_eq_false_iff_ne]
        exact fun hk => hd hk.symm
      have hed : (e.1 == d) = false := by
        rw [hek]
        exact hkd
      simpa [dictGet, List.find?, he, hkd, hed] using ih
    · by_cases hed : e.1 == d
      · simp [dictGet, List.find?, he, hed]
      · simpa [dictGet, List.find?, he, hed] using ih

theorem dictGet_append_other {k : String} {v : Nat} {d : String} (hd : d ≠ k) :
    ∀ m : List (String × Nat), dictGet (m ++ [(k, v)]) d = dictGet m d := by
  intro m
  induction m with
  | nil =>
    have hkd : (k == d) = false := by
      simp only [beq_eq_false_iff_ne]
      exact fun hk => hd hk.symm
    simp [dictGet, List.find?, hkd]
  | cons e m ih =>
    by_cases hed : e.1 == d
    · simp [dictGet, List.find?, hed]
    · simpa [dictGet, List.find?, hed] using ih

theorem foldl_pages (doc : PdfDoc) :
    ∀ (ps : List Nat) (acc : List Char),
      ps.foldl (fun a n => a ++ pageMarker (n + 1) ++ pageText doc n) acc
        = acc ++ pagesConcat doc ps := by
  intro ps
  induction ps with
  | nil => intro acc; simp [pagesConcat]
  | cons n ps ih =>
    intro acc
    rw [List.foldl_cons, ih]
    simp [pagesConcat]

theorem okTrace_append_of :
    ∀ (xs : List Ev) (k : Nat) (ys : List Ev), okTrace k xs = true →
      okTrace (liveAfter k xs) ys = true → okTrace k (xs ++ ys) = true := by
  intro xs
  induction xs with
  | nil => intro k ys _ h2; simpa [liveAfter] using h2
  | cons e xs ih =>
    intro k ys h1 h2
    cases e with
    | start p tx =>
      simp only [okTrace, Bool.and_eq_true, decide_eq_true_eq] at h1
      have hl : liveAfter k (Ev.start p tx :: xs) = liveAfter 1 xs := by
        simp [liveAfter, evStep, h1.1]
      rw [hl] at h2
      simpa [okTrace, h1.1] using ih 1 ys h1.2 h2
    | join =>
      simp only [okTrace] at h1
      have hl : liveAfter k (Ev.join :: xs) = liveAfter 0 xs := by
        simp [liveAfter, evStep]
      rw [hl] at h2
      simpa [okTrace] using ih 0 ys h1 h2
    | stopSet =>
      simp only [okTrace] at h1
      have hl : liveAfter k (Ev.stopSet :: xs) = liveAfter k xs := by
        simp [liveAfter, evStep]
      rw [hl] at h2
      simpa [okTrace] using ih k ys h1 h2
    | invalidPage =>
      simp only [okTrace] at h1
      have hl : liveAfter k (Ev.invalidPage :: xs) = liveAfter k xs := by
        simp [liveAfter, evStep]
      rw [hl] at h2
      simpa [okTrace] using ih k ys h1 h2
    | malformed =>
      simp only [okTrace] at h1
      have hl : liveAfter k (Ev.malformed :: xs) = liveAfter k xs := by
        simp [liveAfter, evStep]
      rw [hl] at h2
      simpa [okTrace] using ih k ys h1 h2
    | saveBm doc page =>
      simp only [okTrace] at h1
      have hl : liveAfter k (Ev.saveBm doc page :: xs) = liveAfter k xs := by
        simp [liveAfter, evStep]
      rw [hl] at h2
      simpa [okTrace] using ih k ys h1 h2

theorem okTrace_prefix_bound :
    ∀ (pre : List Ev) (k : Nat) (suf : List Ev),
      okTrace k (pre ++ suf) = true → k ≤ 1 → liveAfter k pre ≤ 1 := by
  intro pre
  induction pre with
  | nil => intro k suf _ hk; simpa [liveAfter] using hk
  | cons e pre ih =>
    intro k suf h hk
    cases e with
    | start p tx =>
      simp only [List.cons_append, okTrace, Bool.and_eq_true, decide_eq_true_eq] at h
      have hl : liveAfter k (Ev.start p tx :: pre) = liveAfter (k + 1) pre := by
        simp [liveAfter, evStep]
      rw [hl, h.1]
      exact ih 1 suf h.2 le_rfl
    | join =>
      simp only [List.cons_append, okTrace] at h
      have hl : liveAfter k (Ev.join :: pre) = liveAfter 0 pre := by
        simp [liveAfter, evStep]
      rw [hl]
      exact ih 0 suf h (by omega)
    | stopSet =>
      simp only [List.cons_append, okTrace] at h
      have hl : liveAfter k (Ev.stopSet :: pre) = liveAfter k pre := by
        simp [liveAfter, evStep]
      rw [hl]
      exact ih k suf h hk
    | invalidPage =>
      simp only [List.cons_append, okTrace] at h
      have hl : liveAfter k (Ev.invalidPage :: pre) = liveAfter k pre := by
        simp [liveAfter, evStep]
      rw [hl]
      exact ih k suf h hk
    | malformed =>
      simp only [List.cons_append, okTrace] at h
      have hl : liveAfter k (Ev.malformed :: pre) = liveAfter k pre := by
        simp [liveAfter, evStep]
      rw [hl]
      exact ih k suf h hk
    | saveBm doc page =>
      simp only [List.cons_append, okTrace] at h
      have hl : liveAfter k (Ev.saveBm doc page :: pre) = liveAfter k pre := by
        simp [liveAfter, evStep]
      rw [hl]
      exact ih k suf h hk

theorem okTrace_session (p : Nat) (tx : List Char) (evs : List Ev)
    (h1 : okTrace 1 evs = true) :
    okTrace 1 (Ev.stopSet :: Ev.join :: Ev.start p tx :: (evs ++ [Ev.join])) = true ∧
    liveAfter 1 (Ev.stopSet :: Ev.join :: Ev.start p tx :: (evs ++ [Ev.join])) = 0 := by
  constructor
  · have h2 : okTrace (liveAfter 1 evs) [Ev.join] = true := by simp [okTrace]
    have h3 := okTrace_append_of evs 1 [Ev.join] h1 h2
    simpa [okTrace] using h3
  · simp [liveAfter, evStep, List.foldl_append]

theorem handle_controls_ok (pdf : PdfFile) (docId : String) :
    ∀ (cmds : List Cmd) (sp total : Nat) (st : RState),
      okTrace 1 (handle_controls pdf docId sp total st cmds).2 = true ∧
      liveAfter 1 (handle_controls pdf docId sp total st cmds).2 = 0 := by
  intro cmds
  induction cmds with
  | nil =>
    intro sp total st
    simp [handle_controls, okTrace, liveAfter, evStep]
  | cons c rest ih =>
    intro sp total st
    cases c with
    | p =>
      by_cases hp : st.paused
      · simpa [handle_controls, hp] using ih sp total { st with paused := false }
      · simpa [handle_controls, hp] using ih sp total { st with paused := true }
    | s => simp [handle_controls, okTrace, liveAfter, evStep]
    | b =>
      have h := ih sp total
        { st with bookmarks := save_bookmark st.bookmarks docId st.current_page }
      simpa [handle_controls, okTrace, liveAfter, evStep] using h
    | n =>
      rw [show handle_controls pdf docId sp total st (Cmd.n :: rest)
          = (let newPage := min (sp + 5) (total - 1)
             let st1 := readPdfSetup docId newPage { st with stopped := true }
             (match session_info pdf newPage with
              | none => (st1, [Ev.stopSet, Ev.join, Ev.join])
              | some (text, total2) =>
                let r := handle_controls pdf docId newPage total2 st1 rest
                (r.1, Ev.stopSet :: Ev.join :: Ev.start newPage text
                  :: (r.2 ++ [Ev.join])))) from rfl]
      cases hsi : session_info pdf (min (sp + 5) (total - 1)) with
      | none => simp [hsi, okTrace, liveAfter, evStep]
      | some p =>
        obtain ⟨text, total2⟩ := p
        have h := ih (min (sp + 5) (total - 1)) total2
          (readPdfSetup docId (min (sp + 5) (total - 1)) { st with stopped := true })
        have hres := okTrace_session (min (sp + 5) (total - 1)) text
          (handle_controls pdf docId (min (sp + 5) (total - 1)) total2
            (readPdfSetup docId (min (sp + 5) (total - 1)) { st with stopped := true })
            rest).2 h.1
        simpa [hsi] using hres
    | j inp =>
      cases inp with
      | none =>
        have h := ih sp total st
        simpa [handle_controls, okTrace, liveAfter, evStep] using h
      | some k =>
        rw [show handle_controls pdf docId sp total st (Cmd.j (some k) :: rest)
            = (if 0 ≤ k - 1 ∧ k - 1 < (total : Int) then
                 (let jp := (k - 1).toNat
                  let st1 := readPdfSetup docId jp { st with stopped := true }
                  (match session_info pdf jp with
                   | none => (st1, [Ev.stopSet, Ev.join, Ev.join])
                   | some (text, total2) =>
                     let r := handle_controls pdf docId jp total2 st1 rest
                     (r.1, Ev.stopSet :: Ev.join :: Ev.start jp text
                       :: (r.2 ++ [Ev.join]))))
               else
                 (let r := handle_controls pdf docId sp total st rest
                  (r.1, Ev.invalidPage :: r.2))) from rfl]
        by_cases hk : 0 ≤ k - 1 ∧ k - 1 < (total : Int)
        · rw [if_pos hk]
          cases hsi : session_info pdf (k.toNat - 1) with
          | none => simp [hsi, okTrace, liveAfter, evStep]
          | some p =>
            obtain ⟨text, total2⟩ := p
            have h := ih (k.toNat - 1) total2
              (readPdfSetup docId (k.toNat - 1) { st with stopped := true })
            have hres := okTrace_session (k.toNat - 1) text
              (handle_controls pdf docId (k.toNat - 1) total2
                (readPdfSetup docId (k.toNat - 1) { st with stopped := true })
                rest).2 h.1
            simpa [hsi] using hres
        · rw [if_neg hk]
          have h := ih sp total st
          simpa [okTrace, liveAfter, evStep] using h
    | other =>
      simpa [handle_controls] using ih sp total st

/-- C1 counterexample: on the text `"a.b"` with an engine that raises on the
unit `"a"` (and `paused`/`stopped` never set), `speak_text` renders nothing,
terminates with the sink error escaping, and never renders the remaining
unit `"b"` — refuting the claim that a sink failure on one unit is skipped,
that the remaining units are still rendered, and that no sink error escapes
the narration task. -/
theorem sink_error_escapes_cex :
    (speak_text (fun _ => false) (fun _ => false)
        (fun u => decide (u ≠ (['a'] : List Char))) 1 ['a', '.', 'b']).res
      = SpeakRes.sinkErr ['a'] ∧
    (speak_text (fun _ => false) (fun _ => false)
        (fun u => decide (u ≠ (['a'] : List Char))) 1 ['a', '.', 'b']).rendered
      = [] ∧
    (speak_text (fun _ => false) (fun _ => false)
        (fun u => decide (u ≠ (['a'] : List Char))) 1 ['a', '.', 'b']).remaining
      = [['b']] := by
  exact ⟨by decide, by decide, by decide⟩

/-- C1 (amended): `speak_text` has no handler around the engine calls, so if
rendering a unit raises, the narration task aborts at that unit: the sink
error escapes `speak_text` as the task's outcome, every unit actually
rendered before it succeeded, and the units after the failing one are left
unattempted (they are the `remaining` list, never passed to the engine). -/
theorem sink_error_aborts_narration :
    ∀ (stopped paused : Nat → Bool) (sink : List Char → Bool) (fuel : Nat)
      (text u : List Char),
      (speak_text stopped paused sink fuel text).res = SpeakRes.sinkErr u →
      sink u = false ∧
        ∀ q ∈ (speak_text stopped paused sink fuel text).rendered,
          sink q.1 = true := by
  intro stopped paused sink fuel text u hres
  exact speakGo_sinkErr_inv (splitRuns text) [] 0
    (speak_text stopped paused sink fuel text) (by simp) rfl hres

/-- Witness for C1's amended theorem at the counterexample input. -/
theorem sink_error_aborts_narration_w :
    (fun u => decide (u ≠ (['a'] : List Char))) ['a'] = false :=
  (sink_error_aborts_narration (fun _ => false) (fun _ => false)
      (fun u => decide (u ≠ (['a'] : List Char))) 1 ['a', '.', 'b'] ['a']
      (by decide)).1

/-- C2: at most one narration task is live at any instant.  Every event
trace of `read_pdf` (for any command sequence) is well-formed: each
`Thread.start` happens while the count of started-but-unjoined tasks is
zero — the prior task was joined and observed terminated before the `n`/`j`
launch paths start a new one — and consequently every trace prefix holds at
most one live task. -/
theorem at_most_one_narration_task :
    ∀ (pdf : PdfFile) (docId : String) (page : Nat) (st : RState)
      (cmds : List Cmd),
      okTrace 0 (read_pdf pdf docId page st cmds).2 = true ∧
      ∀ pre suf : List Ev, (read_pdf pdf docId page st cmds).2 = pre ++ suf →
        liveAfter 0 pre ≤ 1 := by
  intro pdf docId page st cmds
  have hmain : okTrace 0 (read_pdf pdf docId page st cmds).2 = true := by
    rw [show read_pdf pdf docId page st cmds
        = (let st1 := readPdfSetup docId page st
           match session_info pdf page with
           | none => (st1, [])
           | some (text, total) =>
             let r := handle_controls pdf docId page total st1 cmds
             (r.1, Ev.start page text :: r.2)) from rfl]
    cases hsi : session_info pdf page with
    | none => simp [hsi, okTrace]
    | some p =>
      obtain ⟨text, total⟩ := p
      have h := handle_controls_ok pdf docId cmds page total
        (readPdfSetup docId page st)
      simpa [hsi, okTrace] using h.1
  refine ⟨hmain, ?_⟩
  intro pre suf hsplit
  exact okTrace_prefix_bound pre 0 suf (by rw [← hsplit]; exact hmain) (by omega)

/-- Witness for C2 at a concrete one-page document and command sequence. -/
theorem at_most_one_narration_task_w :
    okTrace 0 (read_pdf (PdfFile.ok ⟨[[]]⟩) "doc" 0
        ⟨none, 0, false, false, BookmarkFile.missing⟩ [Cmd.s]).2 = true ∧
    liveAfter 0 [Ev.start 0 (pageMarker 1)] ≤ 1 := by
  have h := at_most_one_narration_task (PdfFile.ok ⟨[[]]⟩) "doc" 0
    ⟨none, 0, false, false, BookmarkFile.missing⟩ [Cmd.s]
  exact ⟨h.1, h.2 [Ev.start 0 (pageMarker 1)] [Ev.stopSet, Ev.join] (by decide)⟩

/-- C3 counterexample: with `stopped` and `paused` constantly false and an
engine that raises on the unit `"x"`, the task on text `"x.y"` terminates
with the sink error while the unit `"y"` is still unconsumed — the outcome
is neither `finished` nor `stopSig` and units remain, so the narration task
has a third exit mode, refuting the claim that it ends exactly when all
units are exhausted or `stopped` becomes set. -/
theorem narration_ends_on_sink_error_cex :
    (speak_text (fun _ => false) (fun _ => false)
        (fun u => decide (u ≠ (['x'] : List Char))) 1 ['x', '.', 'y']).res
      = SpeakRes.sinkErr ['x'] ∧
    (speak_text (fun _ => false) (fun _ => false)
        (fun u => decide (u ≠ (['x'] : List Char))) 1 ['x', '.', 'y']).res
      ≠ SpeakRes.finished ∧
    (speak_text (fun _ => false) (fun _ => false)
        (fun u => decide (u ≠ (['x'] : List Char))) 1 ['x', '.', 'y']).res
      ≠ SpeakRes.stopSig ∧
    (speak_text (fun _ => false) (fun _ => false)
        (fun u => decide (u ≠ (['x'] : List Char))) 1 ['x', '.', 'y']).remaining
      ≠ [] := by
  exact ⟨by decide, by decide, by decide, by decide⟩

/-- C3 (amended): once the one-shot `stopped` signal is set (at time `T`,
with the schedule monotone as one-shot events are), no further unit is
rendered — the `stopped` check guarding each rendered unit read `false`, so
it happened strictly before `T` (the checks sit at each unit boundary,
including on leaving the pause wait) — and with a poll budget of at least
`T` the task does not stay paused forever.  For every run, regardless of
signals and engine, the task ends in exactly one of three ways: all units
exhausted (`finished`, nothing remaining), `stopped` observed set at the
final check (`stopSig`), or the engine raising on a unit (the sink error
escaping, main.py:146-148 having no handler) — with `hung` the task still
waiting under an unbounded external pause. -/
theorem stop_signal_halts_narration :
    ∀ (stopped paused : Nat → Bool) (sink : List Char → Bool) (fuel : Nat)
      (text : List Char),
      (StoppedMono stopped → ∀ T : Nat, stopped T = true →
        (∀ q ∈ (speak_text stopped paused sink fuel text).rendered,
            stopped q.2 = false ∧ q.2 < T) ∧
        (T ≤ fuel →
          (speak_text stopped paused sink fuel text).res ≠ SpeakRes.hung)) ∧
      ((speak_text stopped paused sink fuel text).res = SpeakRes.hung ∨
        ((speak_text stopped paused sink fuel text).res = SpeakRes.stopSig ∧
          stopped (speak_text stopped paused sink fuel text).tEnd = true) ∨
        ((speak_text stopped paused sink fuel text).res = SpeakRes.finished ∧
          (speak_text stopped paused sink fuel text).remaining = []) ∨
        (∃ u, (speak_text stopped paused sink fuel text).res = SpeakRes.sinkErr u ∧
          sink u = false)) := by
  intro stopped paused sink fuel text
  constructor
  · intro hm T hT
    constructor
    · intro q hq
      have h1 : stopped q.2 = false :=
        speakGo_rendered_unstopped (splitRuns text) [] 0 (by simp) q hq
      refine ⟨h1, ?_⟩
      by_contra hlt
      push_neg at hlt
      have h2 := hm T q.2 hlt hT
      rw [h2] at h1
      exact absurd h1 (by simp)
    · intro hf
      exact speakGo_no_hung hm hT hf (splitRuns text) [] 0
  · exact @speakGo_res_cases stopped paused sink fuel (splitRuns text) [] 0

/-- Witness for C3's amended theorem: with `stopped` set from time 3, a
pause at time 1, a total engine, and poll budget 5, the task does not
hang. -/
theorem stop_signal_halts_narration_w :
    (speak_text (fun t => decide (3 ≤ t)) (fun t => decide (t = 1))
        (fun _ => true) 5 "One. Two. Three. Four.".toList).res
      ≠ SpeakRes.hung := by
  have hm : StoppedMono (fun t => decide (3 ≤ t)) := by
    intro s t hst hs
    simp only [decide_eq_true_eq] at hs ⊢
    omega
  exact ((stop_signal_halts_narration (fun t => decide (3 ≤ t))
      (fun t => decide (t = 1)) (fun _ => true) 5
      "One. Two. Three. Four.".toList).1 hm 3 (by decide)).2 (by decide)

/-- C4: segmentation splits the text on maximal runs of the terminal
punctuation `.`, `!`, `?` — witnessed by delimiters that are non-empty
terminator runs interleaving the split fields back into the original text,
with the fields themselves terminator-free — every produced unit is
non-empty after trimming, the unit list is the in-order trimmed selection of
the split fields, and it is exactly what an uninterrupted `speak_text` run
hands to the engine, in reading order. -/
theorem segment_splits_and_preserves_order :
    ∀ T : List Char,
      (∀ u ∈ segment T, u ≠ [] ∧ trimC u ≠ []) ∧
      (∃ D : List (List Char),
        D.length + 1 = (splitRuns T).length ∧
        (∀ d ∈ D, d ≠ [] ∧ ∀ c ∈ d, isTerm c = true) ∧
        (∀ s ∈ splitRuns T, ∀ c ∈ s, isTerm c = false) ∧
        interleave (splitRuns T) D = T) ∧
      segment T = ((splitRuns T).filter (fun s => !(trimC s).isEmpty)).map trimC ∧
      ∀ fuel : Nat,
        ((speak_text (fun _ => false) (fun _ => false) (fun _ => true) fuel
            T).rendered).map Prod.fst = segment T := by
  intro T
  refine ⟨?_, ?_, rfl, ?_⟩
  · intro u hu
    simp only [segment, List.mem_map, List.mem_filter] at hu
    obtain ⟨s, ⟨hs, hne⟩, hu⟩ := hu
    have h1 : trimC s ≠ [] := by
      intro h
      rw [h] at hne
      simp at hne
    subst hu
    exact ⟨h1, by rw [trimC_idem]; exact h1⟩
  · have h := splitGo_false_recon T.length T [] le_rfl (by simp)
    simpa [splitRuns] using h
  · intro fuel
    have h := speakGo_free_run (splitRuns T) [] 0 fuel
    simpa [speak_text, segment] using h

/-- Witness for C4's per-unit property at a concrete text. -/
theorem segment_splits_and_preserves_order_w :
    (['H', 'i'] : List Char) ≠ [] ∧ trimC ['H', 'i'] ≠ [] :=
  (segment_splits_and_preserves_order ['H', 'i', '.']).1 ['H', 'i'] (by decide)

/-- C5: a text with no sentence-terminal punctuation segments to the empty
unit sequence when it trims to nothing (empty or whitespace-only), and
otherwise to exactly one unit, the whole text trimmed. -/
theorem segment_no_terminal :
    ∀ T : List Char, (∀ c ∈ T, isTerm c = false) →
      segment T = if trimC T = [] then [] else [trimC T] := by
  intro T h
  have hs : splitRuns T = [T] := by
    have h2 := splitGo_no_term T [] h
    simpa [splitRuns] using h2
  rw [segment, hs]
  by_cases ht : trimC T = []
  · simp [ht]
  · have hemp : (trimC T).isEmpty = false := by
      cases htr : trimC T with
      | nil => exact absurd htr ht
      | cons a l => simp
    simp [ht, hemp]

/-- Witness for C5 at a punctuation-free text. -/
theorem segment_no_terminal_w :
    segment ['h', 'i', ' '] = [['h', 'i']] := by
  rw [segment_no_terminal ['h', 'i', ' '] (by decide)]
  decide

/-- C6: bookmark round-trip.  After `save_bookmark`, loading yields the
saved page for that document, and the entries of every other document are
unchanged: `save_bookmark` loads the full mapping, overwrites or inserts
only this document's entry, and rewrites the whole mapping. -/
theorem bookmark_round_trip :
    ∀ (f : BookmarkFile) (doc : String) (p : Nat),
      dictGet (load_bookmarks (save_bookmark f doc p)) doc = some p ∧
      ∀ d : String, d ≠ doc →
        dictGet (load_bookmarks (save_bookmark f doc p)) d
          = dictGet (load_bookmarks f) d := by
  intro f doc p
  have hload : load_bookmarks (save_bookmark f doc p)
      = dictSet (load_bookmarks f) doc p := rfl
  rw [hload]
  constructor
  · unfold dictSet
    by_cases h : (load_bookmarks f).any (fun e => e.1 == doc)
    · rw [if_pos h]
      exact dictGet_map_set_self (load_bookmarks f) h
    · rw [if_neg h]
      exact dictGet_append_self (load_bookmarks f) (Bool.eq_false_iff.mpr h)
  · intro d hd
    unfold dictSet
    by_cases h : (load_bookmarks f).any (fun e => e.1 == doc)
    · rw [if_pos h]
      exact dictGet_map_set_other hd (load_bookmarks f)
    · rw [if_neg h]
      exact dictGet_append_other hd (load_bookmarks f)

/-- Witness for C6 on a concrete mapping with a second document present. -/
theorem bookmark_round_trip_w :
    dictGet (load_bookmarks (save_bookmark
        (BookmarkFile.valid [("a", 1), ("c", 2)]) "a" 7)) "a" = some 7 ∧
    dictGet (load_bookmarks (save_bookmark
        (BookmarkFile.valid [("a", 1), ("c", 2)]) "a" 7)) "c"
      = dictGet (load_bookmarks (BookmarkFile.valid [("a", 1), ("c", 2)])) "c" := by
  have h := bookmark_round_trip (BookmarkFile.valid [("a", 1), ("c", 2)]) "a" 7
  exact ⟨h.1, h.2 ("c") (by decide)⟩

/-- C7: loading bookmarks never raises to the caller — a missing backing
file and an unparsable one both yield the empty mapping — and
`get_bookmark` returns 0 whenever the document is absent from the loaded
mapping. -/
theorem load_bookmarks_never_raises :
    load_bookmarks BookmarkFile.missing = [] ∧
    load_bookmarks BookmarkFile.corrupt = [] ∧
    ∀ (f : BookmarkFile) (doc : String),
      dictGet (load_bookmarks f) doc = none → get_bookmark f doc = 0 := by
  refine ⟨rfl, rfl, ?_⟩
  intro f doc h
  unfold get_bookmark
  rw [h]
  rfl

/-- Witness for C7 at a mapping not containing the queried document. -/
theorem load_bookmarks_never_raises_w :
    get_bookmark (BookmarkFile.valid [("a", 3)]) "b" = 0 :=
  load_bookmarks_never_raises.2.2 (BookmarkFile.valid [("a", 3)]) "b" (by decide)

/-- C8: the jump command rejects out-of-range targets with no state
transition.  When the 1-based input `k` gives an out-of-range 0-based page
`k - 1`, the controller only reports the invalid-page error and continues
the loop on the unchanged state — `stopped` is not set, the running task is
not joined, and no new task is started; a non-numeric page entry likewise
only reports the malformed-input error. -/
theorem jump_rejects_out_of_range :
    ∀ (pdf : PdfFile) (docId : String) (sp total : Nat) (st : RState) (k : Int)
      (rest : List Cmd),
      ¬(0 ≤ k - 1 ∧ k - 1 < (total : Int)) →
      handle_controls pdf docId sp total st (Cmd.j (some k) :: rest)
          = ((handle_controls pdf docId sp total st rest).1,
             Ev.invalidPage :: (handle_controls pdf docId sp total st rest).2) ∧
      handle_controls pdf docId sp total st (Cmd.j none :: rest)
          = ((handle_controls pdf docId sp total st rest).1,
             Ev.malformed :: (handle_controls pdf docId sp total st rest).2) := by
  intro pdf docId sp total st k rest hk
  constructor
  · rw [show handle_controls pdf docId sp total st (Cmd.j (some k) :: rest)
        = (if 0 ≤ k - 1 ∧ k - 1 < (total : Int) then
             (let jp := (k - 1).toNat
              let st1 := readPdfSetup docId jp { st with stopped := true }
              (match session_info pdf jp with
               | none => (st1, [Ev.stopSet, Ev.join, Ev.join])
               | some (text, total2) =>
                 let r := handle_controls pdf docId jp total2 st1 rest
                 (r.1, Ev.stopSet :: Ev.join :: Ev.start jp text
                   :: (r.2 ++ [Ev.join]))))
           else
             (let r := handle_controls pdf docId sp total st rest
              (r.1, Ev.invalidPage :: r.2))) from rfl, if_neg hk]
  · rfl

/-- Witness for C8: jump input 0 (0-based page -1) on a one-page document is
rejected with only the error report in the trace and the state unchanged. -/
theorem jump_rejects_out_of_range_w :
    handle_controls (PdfFile.ok ⟨[[]]⟩) "doc" 0 1
        ⟨some "doc", 0, false, false, BookmarkFile.missing⟩ [Cmd.j (some 0)]
      = (⟨some "doc", 0, false, false, BookmarkFile.missing⟩,
         [Ev.invalidPage, Ev.join]) := by
  rw [(jump_rejects_out_of_range (PdfFile.ok ⟨[[]]⟩) "doc" 0 1
      ⟨some "doc", 0, false, false, BookmarkFile.missing⟩ 0 [] (by decide)).1]
  rfl

/-- C9: when the document cannot be opened or parsed, extraction returns the
failure value `(None, 0)`, and `read_pdf` launches no narration task and
never enters the command loop — its event trace is empty — yet returns
normally with only the usual pre-extraction state writes performed. -/
theorem extraction_failure_no_task :
    ∀ (sp : Nat) (ep : Option Nat) (docId : String) (page : Nat) (st : RState)
      (cmds : List Cmd),
      extract_text_from_pdf PdfFile.unreadable sp ep = (none, 0) ∧
      read_pdf PdfFile.unreadable docId page st cmds
        = (readPdfSetup docId page st, ([] : List Ev)) := by
  intro sp ep docId page st cmds
  exact ⟨rfl, rfl⟩

/-- C10: successful extraction returns the total page count together with
the concatenation, in page order over the requested range clamped to the
document's page count, of the marker line `--- Page N ---` (N 1-based)
followed by that page's text; this marker-bearing text is exactly what
`read_pdf` hands to the narration thread. -/
theorem extract_text_marker_concat :
    ∀ (doc : PdfDoc) (sp : Nat) (ep : Option Nat),
      extract_text_from_pdf (PdfFile.ok doc) sp ep
        = (some (pagesConcat doc
            (List.range' sp (min (ep.getD doc.pages.length) doc.pages.length - sp))),
           doc.pages.length) := by
  intro doc sp ep
  rw [show extract_text_from_pdf (PdfFile.ok doc) sp ep
      = (some ((List.range' sp
            (min (ep.getD doc.pages.length) doc.pages.length - sp)).foldl
          (fun acc n => acc ++ pageMarker (n + 1) ++ pageText doc n) []),
         doc.pages.length) from rfl]
  rw [foldl_pages]
  simp

end BookWorm
